import Mathlib

/-!
Verification of the retention/eviction engine of `events/retention.py`.

The Python module is shallowly embedded below.  Timestamps are modelled as
integer seconds since 1970 (`Int`); the Django ORM queryset operations
(`filter`, `aggregate(Min/Max)`, `delete`) become list operations over an
explicit store of `Event` records belonging to a single project.  Python's
unbounded `while` loops become fueled recursion together with lemmas showing
the chosen fuel is never exhausted.
-/

namespace Retention

/-- An event record, with the fields the retention engine reads:
`server_side_timestamp` (integer seconds since 1970),
`irrelevance_for_retention` (the item irrelevance, a natural number), and the
`never_evict` protection flag.  `id` only serves to tell records apart. -/
structure Event where
  id : Nat
  server_side_timestamp : Int
  irrelevance_for_retention : Nat
  never_evict : Bool
deriving DecidableEq, Repr

/-- An epoch-bounds bucket as produced by `get_epoch_bounds_with_irrelevance`:
`((lower_bound, upper_bound), age_based_irrelevance)`, `none` meaning
unbounded. -/
abbrev Bucket := (Option Int × Option Int) × Nat

/-- Embeds `get_epoch`: `int(datetime_obj.timestamp() / 3600)`.  Python's
`int()` truncates toward zero, which on integer-second timestamps is exactly
`Int.tdiv`. -/
def get_epoch (ts : Int) : Int :=
  Int.tdiv ts 3600

/-- Embeds `datetime_for_epoch`: the instant `epoch * 3600` seconds since
1970. -/
def datetime_for_epoch (epoch : Int) : Int :=
  epoch * 3600

/-- Embeds `get_epoch_bounds` as the predicate the returned `Q` object decides
on a timestamp: `server_side_timestamp >= datetime_for_epoch lower` (when
given) and `server_side_timestamp < datetime_for_epoch upper` (when given). -/
def get_epoch_bounds (lower upper : Option Int) (ts : Int) : Bool :=
  match lower, upper with
  | none, none => true
  | none, some u => decide (ts < datetime_for_epoch u)
  | some l, none => decide (datetime_for_epoch l ≤ ts)
  | some l, some u => decide (datetime_for_epoch l ≤ ts) && decide (ts < datetime_for_epoch u)

/-- Embeds `get_age_for_irrelevance`: `pow(2, age_based_irrelevance) - 1`. -/
def get_age_for_irrelevance (age_based_irrelevance : Nat) : Nat :=
  2 ^ age_based_irrelevance - 1

/-- Fueled body of `map_N_until`: yield `f n` while `f n < until_`.  The fuel
only bounds the Python `while` loop; `map_N_until` supplies enough fuel that
the loop always stops on its own condition first (see
`map_N_until_aux_fuel_irrelevant`). -/
def map_N_until_aux (f : Nat → Nat) (until_ : Int) : Nat → Nat → List Nat
  | 0, _ => []
  | fuel + 1, n =>
    if (f n : Int) < until_ then f n :: map_N_until_aux f until_ fuel (n + 1) else []

/-- Embeds `map_N_until(f, until)` (with `onemore=False`, the only form the
engine uses): the list `f 0, f 1, ...` for as long as the values stay below
`until`. -/
def map_N_until (f : Nat → Nat) (until_ : Int) : List Nat :=
  map_N_until_aux f until_ (until_.toNat + 1) 0

/-- Embeds the generator `pairwise`: consecutive pairs of a list. -/
def pairwise {α : Type} : List α → List (α × α)
  | [] => []
  | [_] => []
  | a :: b :: rest => (a, b) :: pairwise (b :: rest)

/-- Embeds the epoch-level part of `get_epoch_bounds_with_irrelevance` (from
`difference = current_epoch - first_epoch` on): boundaries are built from the
most recent outward, paired, and each swapped pair is tagged with its index as
the age-based irrelevance. -/
def bucket_bounds (first_epoch current_epoch : Int) : List Bucket :=
  let difference := current_epoch - first_epoch
  let ages := map_N_until get_age_for_irrelevance difference
  let swapped_bounds :=
    pairwise ((none : Option Int) :: (ages.map (fun n : Nat => some (current_epoch - (n : Int))) ++ [none]))
  swapped_bounds.enum.map (fun p => ((p.2.2, p.2.1), p.1))

/-- Embeds `get_epoch_bounds_with_irrelevance`: the oldest `never_evict=False`
event's epoch (defaulting to the current epoch when there is none) together
with the current epoch determine the buckets. -/
def get_epoch_bounds_with_irrelevance (store : List Event) (current_timestamp : Int) : List Bucket :=
  let oldest := ((store.filter (fun e => !e.never_evict)).map
    (fun e => e.server_side_timestamp)).min?
  let first_epoch := match oldest with
    | some t => get_epoch t
    | none => get_epoch current_timestamp
  bucket_bounds first_epoch (get_epoch current_timestamp)

/-- Embeds `get_irrelevance_pairs`: per bucket, the age-based irrelevance
together with the maximum `irrelevance_for_retention` among evictable events
inside the bucket's bounds (`0` when there are none, as in `... or 0`). -/
def get_irrelevance_pairs (store : List Event) (ebwi : List Bucket) : List (Nat × Nat) :=
  ebwi.map (fun b =>
    (b.2, ((store.filter (fun e =>
        get_epoch_bounds b.1.1 b.1.2 e.server_side_timestamp && !e.never_evict)).map
      (fun e => e.irrelevance_for_retention)).foldr Nat.max 0))

/-- Embeds `filter_for_work`: keep the buckets whose surveyed pair-sum
strictly exceeds the candidate total irrelevance. -/
def filter_for_work (ebwi : List Bucket) (pairs : List (Nat × Nat)) (max_total_irrelevance : Int) :
    List Bucket :=
  (pairs.zip ebwi).filterMap (fun pb =>
    if ((pb.1.1 + pb.1.2 : Nat) : Int) > max_total_irrelevance then some pb.2 else none)

/-- Embeds `lowered_target`: `int(max_event_count * 0.95)`, i.e. 95% of the
capacity rounded down (the float product never crosses an integer boundary for
realistic capacities, so exact rational arithmetic models it). -/
def lowered_target (max_event_count : Nat) : Nat :=
  max_event_count * 95 / 100

/-- Embeds `should_evict`: strict comparison of the stored count against the
configured capacity. -/
def should_evict (retention_max_event_count stored_event_count : Nat) : Bool :=
  decide (stored_event_count > retention_max_event_count)

/-- The filter of the delete queryset in `evict_for_epoch_and_irrelevance`:
`irrelevance_for_retention > max_irrelevance`, `never_evict = False`, and,
when an epoch bound is given, `server_side_timestamp < datetime_for_epoch
max_epoch`. -/
def evictMatch (max_epoch : Option Int) (max_irrelevance : Int) (e : Event) : Bool :=
  !e.never_evict && decide ((e.irrelevance_for_retention : Int) > max_irrelevance) &&
    (match max_epoch with
     | none => true
     | some m => decide (e.server_side_timestamp < datetime_for_epoch m))

/-- Embeds `evict_for_epoch_and_irrelevance`: one bulk delete; returns the
number of rows deleted and the remaining store. -/
def evict_for_epoch_and_irrelevance (store : List Event) (max_epoch : Option Int)
    (max_irrelevance : Int) : Nat × List Event :=
  ((store.filter (evictMatch max_epoch max_irrelevance)).length,
    store.filter (fun e => !evictMatch max_epoch max_irrelevance e))

/-- The second early-exit condition of `evict_for_irrelevance`:
`max_event_count is not None and deleted >= max_event_count`. -/
def quotaReached (max_event_count : Option Int) (deleted : Nat) : Bool :=
  match max_event_count with
  | some q => decide ((deleted : Int) ≥ q)
  | none => false

/-- Loop body of `evict_for_irrelevance`, with the running `deleted` count and
the trace of per-delete-query row counts made explicit.  After each delete the
loop breaks on `max_item_irrelevance <= -1`, and otherwise on the cumulative
count reaching the optional `max_event_count` quota. -/
def evict_for_irrelevance_aux (max_total_irrelevance : Int) (max_event_count : Option Int) :
    List Event → List Bucket → Nat → List Nat → Nat × List Event × List Nat
  | store, [], deleted, trace => (deleted, store, trace)
  | store, b :: rest, deleted, trace =>
    let max_item_irrelevance := max_total_irrelevance - (b.2 : Int)
    let step := evict_for_epoch_and_irrelevance store b.1.2 max_item_irrelevance
    let deleted' := deleted + step.1
    let trace' := trace ++ [step.1]
    if max_item_irrelevance ≤ -1 then (deleted', step.2, trace')
    else if quotaReached max_event_count deleted' then (deleted', step.2, trace')
    else evict_for_irrelevance_aux max_total_irrelevance max_event_count step.2 rest deleted' trace'

/-- Embeds `evict_for_irrelevance`: walk the buckets newest-to-oldest,
deleting per bucket, with the two early exits of the source.  Returns
`(deleted, remaining store, per-query deletion counts)`. -/
def evict_for_irrelevance (store : List Event) (max_total_irrelevance : Int)
    (ebwi : List Bucket) (max_event_count : Option Int) : Nat × List Event × List Nat :=
  evict_for_irrelevance_aux max_total_irrelevance max_event_count store ebwi 0 []

/-- Message of the exception raised by `evict_for_max_events`. -/
def exhaustMsg : String :=
  "No more effective eviction possible but target not reached"

/-- Marker result for exhausted fuel; proved unreachable for the fuel
`evict_for_max_events` supplies (`evict_loop_no_fuel_error`). -/
def fuelMsg : String :=
  "fuel exhausted"

/-- The `while` loop of `evict_for_max_events` (phase 1): decrement the
threshold, evict with the filtered buckets and the remaining quota, and raise
once the threshold has dropped below `-1`.  `fuel` bounds the recursion
only. -/
def evict_loop (max_event_count : Nat) (sec : Nat) (ebwi : List Bucket)
    (pairs : List (Nat × Nat)) :
    Nat → List Event → Int → Nat → List Nat → Except String (Int × Nat × List Event × List Nat)
  | 0, _, _, _, _ => .error fuelMsg
  | fuel + 1, store, max_total_irrelevance, deleted, trace =>
    if (sec : Int) - (deleted : Int) > (lowered_target max_event_count : Int) then
      let mti' := max_total_irrelevance - 1
      let r := evict_for_irrelevance store mti' (filter_for_work ebwi pairs mti')
        (some (((max_event_count : Int) - (lowered_target max_event_count : Int)) - (deleted : Int)))
      let deleted' := deleted + r.1
      if mti' < -1 then .error exhaustMsg
      else evict_loop max_event_count sec ebwi pairs fuel r.2.1 mti' deleted' (trace ++ r.2.2)
    else .ok (max_total_irrelevance, deleted, store, trace)

/-- Embeds `evict_for_max_events`.  Returns `(final max_total_irrelevance,
deleted, remaining store, per-delete-query counts)`, or the raised exception's
message.  The initial threshold is the maximum surveyed pair sum (the bucket
list is never empty, see the C10 theorem, so Python's `max` is defined). -/
def evict_for_max_events (store : List Event) (retention_max_event_count : Nat)
    (timestamp : Int) (stored_event_count : Option Nat) :
    Except String (Int × Nat × List Event × List Nat) :=
  let sec := match stored_event_count with
    | some n => n
    | none => store.length + 1
  let ebwi := get_epoch_bounds_with_irrelevance store timestamp
  let pairs := get_irrelevance_pairs store ebwi
  let orig := (pairs.map (fun p => p.1 + p.2)).foldr Nat.max 0
  evict_loop retention_max_event_count sec ebwi pairs (orig + 2) store (orig : Int) 0 []

/-- Epoch-level membership in a bucket's bounds: `lb ≤ e` (when bounded below)
and `e < ub` (when bounded above). -/
def inB (e : Int) (bounds : Option Int × Option Int) : Bool :=
  (match bounds.1 with
   | none => true
   | some l => decide (l ≤ e)) &&
  (match bounds.2 with
   | none => true
   | some u => decide (e < u))

/-- Modelled from the spec: the §4.6 EvictionExecutor variant with no early
exit — it "processes every remaining older bucket", deleting per bucket with
the same per-bucket delete as the implementation.  Used only to compare
against `evict_for_irrelevance` (claim C7). -/
def evict_for_irrelevance_noexit (store : List Event) (max_total_irrelevance : Int) :
    List Bucket → Nat × List Event
  | [] => (0, store)
  | b :: rest =>
    let step := evict_for_epoch_and_irrelevance store b.1.2
      (max_total_irrelevance - (b.2 : Int))
    let r := evict_for_irrelevance_noexit step.2 max_total_irrelevance rest
    (step.1 + r.1, r.2)

/-- Lengths of a filter and of the complementary filter add up. -/
lemma length_filter_partition {α : Type} (p : α → Bool) (l : List α) :
    (l.filter p).length + (l.filter fun a => !p a).length = l.length := by
  induction l with
  | nil => rfl
  | cons a t ih => by_cases h : p a <;> simp [List.filter_cons, h] <;> omega

/-- Splitting a filter along a sub-predicate `p` of `q`. -/
lemma length_filter_split {α : Type} (p q : α → Bool) (himp : ∀ e, p e = true → q e = true)
    (l : List α) :
    (l.filter p).length + (l.filter fun e => q e && !p e).length = (l.filter q).length := by
  induction l with
  | nil => rfl
  | cons a t ih =>
    by_cases hp : p a
    · have hq := himp a hp
      simp [List.filter_cons, hp, hq]
      omega
    · by_cases hq : q a <;> simp [List.filter_cons, hp, hq] <;> omega

/-- A protected event never satisfies the delete filter. -/
lemma evictMatch_protected (me : Option Int) (mi : Int) (e : Event)
    (h : e.never_evict = true) : evictMatch me mi e = false := by
  simp [evictMatch, h]

/-- One bulk delete accounts for every row: deleted count plus remaining
length equals the original length. -/
lemma epoch_delete_length (store : List Event) (me : Option Int) (mi : Int) :
    (evict_for_epoch_and_irrelevance store me mi).1 +
      (evict_for_epoch_and_irrelevance store me mi).2.length = store.length :=
  length_filter_partition _ _

/-- One bulk delete removes only evictable rows: deleted count plus remaining
evictable rows equals the original evictable rows. -/
lemma epoch_delete_np (store : List Event) (me : Option Int) (mi : Int) :
    (evict_for_epoch_and_irrelevance store me mi).1 +
      ((evict_for_epoch_and_irrelevance store me mi).2.filter
        (fun e => !e.never_evict)).length =
      (store.filter (fun e => !e.never_evict)).length := by
  have h := length_filter_split (evictMatch me mi) (fun e => !e.never_evict)
    (fun e hp => by
      rcases Bool.and_eq_true_iff.mp hp with ⟨h1, _⟩
      rcases Bool.and_eq_true_iff.mp h1 with ⟨h2, _⟩
      exact h2) store
  simpa [evict_for_epoch_and_irrelevance, List.filter_filter] using h

/-- A protected event survives one bulk delete. -/
lemma epoch_delete_mem (store : List Event) (me : Option Int) (mi : Int) (e : Event)
    (he : e ∈ store) (h : e.never_evict = true) :
    e ∈ (evict_for_epoch_and_irrelevance store me mi).2 := by
  simp [evict_for_epoch_and_irrelevance, List.mem_filter, he, evictMatch_protected me mi e h]

/-- The remaining store after one bulk delete is a subset of the original. -/
lemma epoch_delete_subset (store : List Event) (me : Option Int) (mi : Int) :
    (evict_for_epoch_and_irrelevance store me mi).2 ⊆ store :=
  (List.filter_sublist store).subset

/-- The executor accounts for every row across its buckets. -/
lemma evict_aux_length (mti : Int) (meq : Option Int) :
    ∀ (ebwi : List Bucket) (store : List Event) (acc : Nat) (tr : List Nat),
      (evict_for_irrelevance_aux mti meq store ebwi acc tr).1 +
        (evict_for_irrelevance_aux mti meq store ebwi acc tr).2.1.length =
        acc + store.length := by
  intro ebwi
  induction ebwi with
  | nil => intro store acc tr; simp [evict_for_irrelevance_aux]
  | cons b rest ih =>
    intro store acc tr
    have hlen := epoch_delete_length store b.1.2 (mti - (b.2 : Int))
    simp only [evict_for_irrelevance_aux]
    split
    · simp; omega
    · split
      · simp; omega
      · rw [ih]
        omega

/-- The executor deletes only evictable rows. -/
lemma evict_aux_np (mti : Int) (meq : Option Int) :
    ∀ (ebwi : List Bucket) (store : List Event) (acc : Nat) (tr : List Nat),
      (evict_for_irrelevance_aux mti meq store ebwi acc tr).1 +
        ((evict_for_irrelevance_aux mti meq store ebwi acc tr).2.1.filter
          (fun e => !e.never_evict)).length =
        acc + (store.filter (fun e => !e.never_evict)).length := by
  intro ebwi
  induction ebwi with
  | nil => intro store acc tr; simp [evict_for_irrelevance_aux]
  | cons b rest ih =>
    intro store acc tr
    have hnp := epoch_delete_np store b.1.2 (mti - (b.2 : Int))
    simp only [evict_for_irrelevance_aux]
    split
    · simp; omega
    · split
      · simp; omega
      · rw [ih]
        omega

/-- A protected event survives the whole executor run. -/
lemma evict_aux_mem (mti : Int) (meq : Option Int) (e : Event) (h : e.never_evict = true) :
    ∀ (ebwi : List Bucket) (store : List Event) (acc : Nat) (tr : List Nat), e ∈ store →
      e ∈ (evict_for_irrelevance_aux mti meq store ebwi acc tr).2.1 := by
  intro ebwi
  induction ebwi with
  | nil => intro store acc tr he; simpa [evict_for_irrelevance_aux] using he
  | cons b rest ih =>
    intro store acc tr he
    have hmem := epoch_delete_mem store b.1.2 (mti - (b.2 : Int)) e he h
    simp only [evict_for_irrelevance_aux]
    split
    · simpa using hmem
    · split
      · simpa using hmem
      · exact ih _ _ _ hmem

/-- The executor's remaining store is a subset of the input store. -/
lemma evict_aux_subset (mti : Int) (meq : Option Int) :
    ∀ (ebwi : List Bucket) (store : List Event) (acc : Nat) (tr : List Nat),
      (evict_for_irrelevance_aux mti meq store ebwi acc tr).2.1 ⊆ store := by
  intro ebwi
  induction ebwi with
  | nil => intro store acc tr; simp [evict_for_irrelevance_aux]
  | cons b rest ih =>
    intro store acc tr
    have hsub := epoch_delete_subset store b.1.2 (mti - (b.2 : Int))
    simp only [evict_for_irrelevance_aux]
    split
    · simpa using hsub
    · split
      · simpa using hsub
      · exact fun x hx => hsub (ih _ _ _ hx)

/-- The executor only ever appends to the trace it is passed. -/
lemma evict_aux_trace_extends (mti : Int) (meq : Option Int) :
    ∀ (ebwi : List Bucket) (store : List Event) (acc : Nat) (tr : List Nat),
      ∃ s, (evict_for_irrelevance_aux mti meq store ebwi acc tr).2.2 = tr ++ s := by
  intro ebwi
  induction ebwi with
  | nil => intro store acc tr; exact ⟨[], by simp [evict_for_irrelevance_aux]⟩
  | cons b rest ih =>
    intro store acc tr
    simp only [evict_for_irrelevance_aux]
    split
    · exact ⟨_, rfl⟩
    · split
      · exact ⟨_, rfl⟩
      · rcases ih (evict_for_epoch_and_irrelevance store b.1.2 (mti - (b.2 : Int))).2 _
          (tr ++ [(evict_for_epoch_and_irrelevance store b.1.2 (mti - (b.2 : Int))).1]) with ⟨s, hs⟩
        exact ⟨_, by rw [hs, List.append_assoc]⟩

/-- C9: round trip — `get_epoch (datetime_for_epoch e) = e` for every integer
`e`, and `datetime_for_epoch e` lies exactly on an epoch boundary (a multiple
of 3600 seconds). -/
theorem C9_round_trip (e : Int) :
    get_epoch (datetime_for_epoch e) = e ∧ (3600 : Int) ∣ datetime_for_epoch e := by
  constructor
  · show Int.tdiv (e * 3600) 3600 = e
    rw [Int.mul_tdiv_cancel]
    omega
  · exact ⟨e, by rw [datetime_for_epoch, Int.mul_comm]⟩

/-- C8 counterexample: `get_epoch` does not return the mathematical floor of
seconds/3600 for every timestamp — at 1800 seconds before 1970 it returns `0`
while the floor is `-1`. -/
theorem C8_counterexample : get_epoch (-1800) ≠ Int.fdiv (-1800) 3600 := by decide

/-- C8 amended: `get_epoch` truncates the quotient toward zero (Python
`int()`), which agrees with the mathematical floor for timestamps at or after
1970 but exceeds it by one for negative timestamps that are not an exact
multiple of 3600 seconds. -/
theorem C8_amended (ts : Int) :
    (0 ≤ ts → get_epoch ts = Int.fdiv ts 3600) ∧
    (ts < 0 → ¬(3600 : Int) ∣ ts → get_epoch ts = Int.fdiv ts 3600 + 1) := by
  constructor
  · intro h
    rw [get_epoch, Int.tdiv_eq_ediv h (by omega), Int.fdiv_eq_ediv _ (by omega)]
  · intro hneg hdvd
    match ts, hneg with
    | Int.negSucc n, _ =>
      have h1 : get_epoch (Int.negSucc n) = -(((n + 1) / 3600 : Nat) : Int) := rfl
      have h2 : Int.fdiv (Int.negSucc n) 3600 = Int.negSucc (n / 3600) := rfl
      have h3 : ¬(3600 ∣ (n + 1)) := by
        rintro ⟨k, hk⟩
        exact hdvd ⟨-(k : Int), by rw [Int.negSucc_eq]; omega⟩
      have h4 : (n + 1) / 3600 = n / 3600 := by
        rw [Nat.succ_div]
        simp [h3]
      rw [h1, h2, h4, Int.negSucc_eq]
      push_cast
      ring

/-- C8 amended, witness: a nonnegative and a negative instantiation. -/
theorem C8_amended_witness :
    ((0 : Int) ≤ 7200 ∧ get_epoch 7200 = Int.fdiv 7200 3600) ∧
    ((-1800 : Int) < 0 ∧ ¬(3600 : Int) ∣ (-1800) ∧
      get_epoch (-1800) = Int.fdiv (-1800) 3600 + 1) :=
  ⟨⟨by decide, (C8_amended 7200).1 (by decide)⟩,
    ⟨by decide, by omega, (C8_amended (-1800)).2 (by decide) (by omega)⟩⟩

/-- C2 counterexample: a single executor call with remaining quota `1` deletes
two events — the quota check runs only after each bulk delete, so one call can
overshoot past the quota. -/
theorem C2_counterexample :
    ¬((evict_for_irrelevance [⟨1, 0, 5, false⟩, ⟨2, 0, 5, false⟩] 0
        [((none, none), 0)] (some 1)).1 ≤ 1) := by decide

/-- Quota bookkeeping of the executor loop: whenever a further delete query is
issued, the deletions accumulated strictly before it were below the quota. -/
lemma evict_aux_quota (mti q : Int) :
    ∀ (ebwi : List Bucket) (store : List Event) (acc : Nat) (tr : List Nat),
      acc = tr.sum →
      (tr ≠ [] → (tr.sum : Int) < q) →
      ∀ i : Nat, tr.length ≤ i + 1 →
        i + 1 < (evict_for_irrelevance_aux mti (some q) store ebwi acc tr).2.2.length →
        (((evict_for_irrelevance_aux mti (some q) store ebwi acc tr).2.2.take (i + 1)).sum
          : Int) < q := by
  intro ebwi
  induction ebwi with
  | nil =>
    intro store acc tr _ _ i hlow hhigh
    simp only [evict_for_irrelevance_aux] at hhigh hlow ⊢
    omega
  | cons b rest ih =>
    intro store acc tr hacc hq i hlow hhigh
    simp only [evict_for_irrelevance_aux] at hhigh ⊢
    set d := (evict_for_epoch_and_irrelevance store b.1.2 (mti - (b.2 : Int))).1 with hd
    split at hhigh
    · next hmii =>
      simp only [if_pos hmii, List.length_append, List.length_cons, List.length_nil] at hhigh ⊢
      have hi : i + 1 = tr.length := by omega
      rcases List.eq_nil_or_concat tr with htr | _
      · subst htr; simp at hi
      · rw [hi, List.take_append_of_le_length (le_refl _), List.take_length]
        apply hq
        intro hnil
        rw [hnil] at hi
        simp at hi
    · next hmii =>
      split at hhigh
      · next hquo =>
        simp only [List.length_append, List.length_cons, List.length_nil] at hhigh ⊢
        rw [if_neg hmii, if_pos ?hq1]
        case hq1 => assumption
        have hi : i + 1 = tr.length := by omega
        rcases List.eq_nil_or_concat tr with htr | _
        · subst htr; simp at hi
        · simp only [List.length_append] at hi
          rw [show i + 1 = tr.length by omega,
            List.take_append_of_le_length (le_refl _), List.take_length]
          apply hq
          intro hnil
          rw [hnil] at hi
          simp at hi
      · next hquo =>
        rw [if_neg hmii, if_neg ?hq2]
        case hq2 => assumption
        by_cases hcase : tr.length + 1 ≤ i + 1
        · exact ih _ _ _ (by simp [hacc]) (fun _ => by
            simp only [quotaReached, ge_iff_le, decide_eq_true_eq] at hquo
            simp only [List.sum_append, List.sum_cons, List.sum_nil]
            rw [← hacc]
            omega) i (by simpa using hcase) hhigh
        · have hi : i + 1 = tr.length := by omega
          rcases evict_aux_trace_extends mti (some q) rest
            (evict_for_epoch_and_irrelevance store b.1.2 (mti - (b.2 : Int))).2
            (acc + d) (tr ++ [d]) with ⟨s, hs⟩
          rw [hs, List.append_assoc, hi,
            List.take_append_of_le_length (le_refl _), List.take_length]
          apply hq
          intro hnil
          rw [hnil] at hi
          simp at hi

/-- C2 amended: the remaining-quota argument does not cap the call's total
deletions (the final bulk delete may overshoot, see `C2_counterexample`); what
holds is that the quota caps continuation — before every delete query after
the first, the cumulative number of rows already deleted is strictly below the
quota, so only the last query issued can push the total past it. -/
theorem C2_amended (store : List Event) (mti : Int) (ebwi : List Bucket) (q : Int)
    (i : Nat)
    (h : i + 1 < (evict_for_irrelevance store mti ebwi (some q)).2.2.length) :
    (((evict_for_irrelevance store mti ebwi (some q)).2.2.take (i + 1)).sum : Int) < q :=
  evict_aux_quota mti q ebwi store 0 [] rfl (fun hc => absurd rfl hc) i (by simp) h

/-- C2 amended, witness: a two-query run in which the deletions before the
second query stay below the quota. -/
theorem C2_amended_witness :
    0 + 1 < (evict_for_irrelevance [⟨1, 0, 5, false⟩] 0
      [((none, some 10), 0), ((none, some 5), 0)] (some 5)).2.2.length ∧
    (((evict_for_irrelevance [⟨1, 0, 5, false⟩] 0
      [((none, some 10), 0), ((none, some 5), 0)] (some 5)).2.2.take (0 + 1)).sum : Int) < 5 :=
  ⟨by decide, C2_amended [⟨1, 0, 5, false⟩] 0
    [((none, some 10), 0), ((none, some 5), 0)] 5 0 (by decide)⟩

/-- Unfolding of one `evict_loop` iteration. -/
lemma evict_loop_succ (maxc sec : Nat) (ebwi : List Bucket) (pairs : List (Nat × Nat))
    (fuel : Nat) (store : List Event) (mti : Int) (deleted : Nat) (tr : List Nat) :
    evict_loop maxc sec ebwi pairs (fuel + 1) store mti deleted tr =
      if (sec : Int) - (deleted : Int) > (lowered_target maxc : Int) then
        let mti' := mti - 1
        let r := evict_for_irrelevance store mti' (filter_for_work ebwi pairs mti')
          (some (((maxc : Int) - (lowered_target maxc : Int)) - (deleted : Int)))
        if mti' < -1 then .error exhaustMsg
        else evict_loop maxc sec ebwi pairs fuel r.2.1 mti' (deleted + r.1) (tr ++ r.2.2)
      else .ok (mti, deleted, store, tr) := rfl

/-- A protected event survives every iteration of the eviction loop. -/
lemma evict_loop_mem (maxc sec : Nat) (ebwi : List Bucket) (pairs : List (Nat × Nat))
    (e : Event) (hne : e.never_evict = true) :
    ∀ (fuel : Nat) (store : List Event) (mti : Int) (deleted : Nat) (tr : List Nat)
      (m : Int) (d : Nat) (s' : List Event) (tr' : List Nat),
      evict_loop maxc sec ebwi pairs fuel store mti deleted tr = .ok (m, d, s', tr') →
      e ∈ store → e ∈ s' := by
  intro fuel
  induction fuel with
  | zero => intro store mti deleted tr m d s' tr' hok; exact absurd hok (by simp [evict_loop])
  | succ n ih =>
    intro store mti deleted tr m d s' tr' hok he
    rw [evict_loop_succ] at hok
    split at hok
    · simp only at hok
      split at hok
      · exact absurd hok (by simp)
      · exact ih _ _ _ _ _ _ _ _ hok
          (evict_aux_mem _ _ e hne _ store 0 [] he)
    · rw [Except.ok.injEq, Prod.mk.injEq, Prod.mk.injEq, Prod.mk.injEq] at hok
      rw [← hok.2.2.1]
      exact he

/-- C1: no eviction operation ever deletes a protected event — an event with
`never_evict = true` survives any single bulk delete
(`evict_for_epoch_and_irrelevance`), any executor run
(`evict_for_irrelevance`, whatever the threshold, buckets and quota), and any
completed `evict_for_max_events` run. -/
theorem C1_protected_never_deleted (e : Event) (store : List Event)
    (he : e ∈ store) (hne : e.never_evict = true) :
    (∀ me mi, e ∈ (evict_for_epoch_and_irrelevance store me mi).2) ∧
    (∀ mti ebwi meq, e ∈ (evict_for_irrelevance store mti ebwi meq).2.1) ∧
    (∀ maxc ts sec m d s' tr,
      evict_for_max_events store maxc ts sec = .ok (m, d, s', tr) → e ∈ s') := by
  refine ⟨fun me mi => epoch_delete_mem store me mi e he hne,
    fun mti ebwi meq => evict_aux_mem mti meq e hne ebwi store 0 [] he, ?_⟩
  intro maxc ts sec m d s' tr hok
  exact evict_loop_mem maxc _ _ _ e hne _ store _ 0 [] m d s' tr hok he

/-- C1 witness: a concrete protected event surviving a concrete bulk delete,
executor run and full eviction run. -/
theorem C1_witness :
    (⟨7, 0, 9, true⟩ : Event) ∈
      (evict_for_epoch_and_irrelevance [⟨7, 0, 9, true⟩, ⟨8, 0, 9, false⟩] none (-1)).2 ∧
    (⟨7, 0, 9, true⟩ : Event) ∈
      (evict_for_irrelevance [⟨7, 0, 9, true⟩, ⟨8, 0, 9, false⟩] (-3)
        [((none, none), 0)] (some 0)).2.1 ∧
    ∀ m d s' tr,
      evict_for_max_events [⟨7, 0, 9, true⟩, ⟨8, 0, 9, false⟩] 1 3600 (some 2) =
        .ok (m, d, s', tr) → (⟨7, 0, 9, true⟩ : Event) ∈ s' := by
  have h := C1_protected_never_deleted ⟨7, 0, 9, true⟩ [⟨7, 0, 9, true⟩, ⟨8, 0, 9, false⟩]
    (by decide) rfl
  exact ⟨h.1 none (-1), h.2.1 (-3) [((none, none), 0)] (some 0),
    fun m d s' tr => h.2.2 1 3600 (some 2) m d s' tr⟩

/-- C5: if the stored event count passed in is at most the lowered target, the
run deletes nothing, issues no delete queries, and leaves the store
unchanged. -/
theorem C5_noop_below_target (store : List Event) (maxc : Nat) (ts : Int) (sec : Nat)
    (h : sec ≤ lowered_target maxc) :
    ∃ m, evict_for_max_events store maxc ts (some sec) = .ok (m, 0, store, []) := by
  refine ⟨((((get_irrelevance_pairs store (get_epoch_bounds_with_irrelevance store ts)).map
    (fun p => p.1 + p.2)).foldr Nat.max 0 : Nat) : Int), ?_⟩
  show evict_loop maxc sec _ _ (_ + 2) store _ 0 [] = _
  rw [show ∀ n : Nat, n + 2 = (n + 1) + 1 from fun n => rfl, evict_loop_succ,
    if_neg (by push_cast; omega)]

/-- C5 witness. -/
theorem C5_noop_below_target_witness :
    10 ≤ lowered_target 100 ∧
    ∃ m, evict_for_max_events [⟨1, 0, 4, false⟩] 100 0 (some 10) =
      .ok (m, 0, [⟨1, 0, 4, false⟩], []) :=
  ⟨by decide, C5_noop_below_target [⟨1, 0, 4, false⟩] 100 0 10 (by decide)⟩

/-- Consecutive age-for-irrelevance values are strictly increasing. -/
lemma age_strict (n : Nat) : get_age_for_irrelevance n < get_age_for_irrelevance (n + 1) := by
  have h1 : 1 ≤ 2 ^ n := Nat.one_le_two_pow
  have h2 : 2 ^ (n + 1) = 2 ^ n * 2 := pow_succ 2 n
  simp only [get_age_for_irrelevance]
  omega

/-- When the fueled `map_N_until` body produces anything, its head is `f n`. -/
lemma map_N_until_aux_head (u : Int) (fuel n : Nat) :
    ∀ x ∈ (map_N_until_aux get_age_for_irrelevance u fuel n).head?,
      x = get_age_for_irrelevance n := by
  cases fuel with
  | zero => simp [map_N_until_aux]
  | succ m =>
    simp only [map_N_until_aux]
    split <;> simp

/-- The ages produced by `map_N_until` are strictly increasing. -/
lemma map_N_until_aux_chain (u : Int) :
    ∀ (fuel n : Nat), List.Chain' (· < ·) (map_N_until_aux get_age_for_irrelevance u fuel n) := by
  intro fuel
  induction fuel with
  | zero => intro n; simp [map_N_until_aux]
  | succ m ih =>
    intro n
    simp only [map_N_until_aux]
    split
    · rw [List.chain'_cons']
      refine ⟨fun y hy => ?_, ih (n + 1)⟩
      rw [map_N_until_aux_head u m (n + 1) y hy]
      exact age_strict n
    · simp

/-- Strictly increasing ages list. -/
lemma map_N_until_chain (u : Int) :
    List.Chain' (· < ·) (map_N_until get_age_for_irrelevance u) :=
  map_N_until_aux_chain u _ 0

/-- With a nonpositive span, `map_N_until` produces nothing. -/
lemma map_N_until_nonpos (u : Int) (hu : u ≤ 0) :
    map_N_until get_age_for_irrelevance u = [] := by
  rw [map_N_until, Int.toNat_of_nonpos hu]
  simp only [map_N_until_aux, get_age_for_irrelevance]
  norm_num
  omega

/-- First components of consecutive pairs: everything but the last element. -/
lemma pairwise_map_fst {α : Type} : ∀ l : List α, (pairwise l).map Prod.fst = l.dropLast
  | [] => rfl
  | [_] => rfl
  | a :: b :: r => by
    simp only [pairwise, List.map_cons, pairwise_map_fst (b :: r)]
    rfl

/-- Second components of consecutive pairs: everything but the first element. -/
lemma pairwise_map_snd {α : Type} : ∀ l : List α, (pairwise l).map Prod.snd = l.tail
  | [] => rfl
  | [_] => rfl
  | a :: b :: r => by
    simp only [pairwise, List.map_cons, pairwise_map_snd (b :: r)]
    rfl

/-- Coverage of the half-line below `u` by the pairs built from a strictly
descending boundary list: each epoch below `u` lies in exactly one swapped
pair, and no epoch at or above `u` lies in any. -/
lemma pairwise_cover_aux (e : Int) :
    ∀ (D : List Int) (u : Int), List.Chain' (· > ·) (u :: D) →
      List.countP (fun q => inB e (q.2, q.1))
        (pairwise (some u :: (D.map some ++ [none]))) = if e < u then 1 else 0 := by
  intro D
  induction D with
  | nil =>
    intro u _
    by_cases h : e < u <;>
      simp [pairwise, List.countP_cons, inB, h]
  | cons d D' ih =>
    intro u hchain
    have hdu : u > d := (List.chain'_cons.mp hchain).1
    have htail := ih d (List.chain'_cons.mp hchain).2
    simp only [List.map_cons, List.cons_append, pairwise, List.countP_cons,
      List.append_eq, htail]
    have hc : (inB e ((some d : Option Int), (some u : Option Int)) = true) ↔
        (d ≤ e ∧ e < u) := by simp [inB]
    show (if e < d then 1 else 0) + (if inB e (some d, some u) = true then 1 else 0) =
      if e < u then 1 else 0
    simp only [hc]
    split_ifs <;> omega

/-- Full-line coverage by the swapped pairs of `[none] ++ D ++ [none]` for a
strictly descending `D`: every epoch lies in exactly one pair. -/
lemma pairwise_cover (e : Int) (D : List Int) (hD : List.Chain' (· > ·) D) :
    List.countP (fun q => inB e (q.2, q.1))
      (pairwise ((none : Option Int) :: (D.map some ++ [none]))) = 1 := by
  cases D with
  | nil => simp [pairwise, List.countP_cons, inB]
  | cons d D' =>
    have htail := pairwise_cover_aux e D' d hD
    simp only [List.map_cons, List.cons_append, pairwise, List.countP_cons,
      List.append_eq, htail]
    have hc : (inB e ((some d : Option Int), (none : Option Int)) = true) ↔ d ≤ e := by
      simp [inB]
    show (if e < d then 1 else 0) + (if inB e (some d, none) = true then 1 else 0) = 1
    simp only [hc]
    split_ifs <;> omega

/-- Counting over the constructed buckets is counting over the swapped
pairs. -/
lemma bucket_bounds_countP (f c e : Int) :
    (bucket_bounds f c).countP (fun b => inB e b.1) =
      List.countP (fun q => inB e (q.2, q.1))
        (pairwise ((none : Option Int) ::
          ((map_N_until get_age_for_irrelevance (c - f)).map
            (fun n : Nat => some (c - (n : Int))) ++ [none]))) := by
  simp only [bucket_bounds]
  rw [List.countP_map]
  conv_rhs => rw [← List.enum_map_snd (pairwise ((none : Option Int) ::
    ((map_N_until get_age_for_irrelevance (c - f)).map
      (fun n : Nat => some (c - (n : Int))) ++ [none]))), List.countP_map]
  rfl

/-- The upper bounds of the buckets, in order: `none` then the built
boundaries. -/
lemma bucket_bounds_ubs (f c : Int) :
    (bucket_bounds f c).map (fun b => b.1.2) =
      (none : Option Int) :: (map_N_until get_age_for_irrelevance (c - f)).map
        (fun n : Nat => some (c - (n : Int))) := by
  simp only [bucket_bounds]
  rw [List.map_map]
  have h1 : ((fun (b : Bucket) => b.1.2) ∘
      (fun p : Nat × (Option Int × Option Int) => ((p.2.2, p.2.1), p.1))) =
      (Prod.fst ∘ Prod.snd) := rfl
  rw [h1, ← List.map_map, List.enum_map_snd, pairwise_map_fst]
  rw [show (none : Option Int) :: ((map_N_until get_age_for_irrelevance (c - f)).map
    (fun n : Nat => some (c - (n : Int))) ++ [none]) =
    ((none : Option Int) :: (map_N_until get_age_for_irrelevance (c - f)).map
      (fun n : Nat => some (c - (n : Int)))) ++ [none] from rfl, List.dropLast_concat]

/-- The lower bounds of the buckets, in order: the built boundaries then
`none`. -/
lemma bucket_bounds_lbs (f c : Int) :
    (bucket_bounds f c).map (fun b => b.1.1) =
      (map_N_until get_age_for_irrelevance (c - f)).map
        (fun n : Nat => some (c - (n : Int))) ++ [none] := by
  simp only [bucket_bounds]
  rw [List.map_map]
  have h1 : ((fun (b : Bucket) => b.1.1) ∘
      (fun p : Nat × (Option Int × Option Int) => ((p.2.2, p.2.1), p.1))) =
      (Prod.snd ∘ Prod.snd) := rfl
  rw [h1, ← List.map_map, List.enum_map_snd, pairwise_map_snd]
  rfl

/-- The absolute epoch boundaries are strictly decreasing. -/
lemma bucket_boundary_chain (f c : Int) :
    List.Chain' (· > ·) ((map_N_until get_age_for_irrelevance (c - f)).map
      (fun n : Nat => (c - (n : Int)))) := by
  rw [List.chain'_map]
  exact (map_N_until_chain (c - f)).imp (fun a b hab => by omega)

/-- C6: for every `oldest <= current` epoch pair, the produced buckets
partition the whole epoch line — every epoch lies in exactly one bucket — the
newest (first) bucket is unbounded above and the oldest (last) bucket is
unbounded below. -/
theorem C6_bucket_coverage (first current : Int) (h : first ≤ current) :
    (∀ e : Int, (bucket_bounds first current).countP (fun b => inB e b.1) = 1) ∧
    ((bucket_bounds first current).map (fun b => b.1.2)).head? = some none ∧
    ((bucket_bounds first current).map (fun b => b.1.1)).getLast? = some none := by
  refine ⟨fun e => ?_, ?_, ?_⟩
  · rw [bucket_bounds_countP]
    have hm : (map_N_until get_age_for_irrelevance (current - first)).map
        (fun n : Nat => some (current - (n : Int))) =
        ((map_N_until get_age_for_irrelevance (current - first)).map
          (fun n : Nat => (current - (n : Int)))).map some := by
      rw [List.map_map]
      rfl
    rw [hm]
    exact pairwise_cover e _ (bucket_boundary_chain first current)
  · rw [bucket_bounds_ubs]
    rfl
  · rw [bucket_bounds_lbs]
    exact List.getLast?_concat _

/-- C6 witness: the concrete span from epoch 0 to epoch 5. -/
theorem C6_bucket_coverage_witness :
    (0 : Int) ≤ 5 ∧ (bucket_bounds 0 5).countP (fun b => inB 3 b.1) = 1 :=
  ⟨by decide, (C6_bucket_coverage 0 5 (by decide)).1 3⟩

/-- The bucket list always starts with the unbounded-above, age-irrelevance-0
bucket. -/
lemma bucket_bounds_shape (f c : Int) :
    ∃ lb rest, bucket_bounds f c = ((lb, none), 0) :: rest := by
  simp only [bucket_bounds]
  cases hL : (map_N_until get_age_for_irrelevance (c - f)).map
      (fun n : Nat => some (c - (n : Int))) with
  | nil => exact ⟨none, [], rfl⟩
  | cons y ys =>
    refine ⟨y, ((pairwise (y :: (ys ++ [none]))).enumFrom 1).map
      (fun p : Nat × (Option Int × Option Int) => ((p.2.2, p.2.1), p.1)), ?_⟩
    rfl

/-- The bucket list is never empty. -/
lemma bucket_bounds_ne_nil (f c : Int) : bucket_bounds f c ≠ [] := by
  rcases bucket_bounds_shape f c with ⟨lb, rest, hsh⟩
  rw [hsh]
  simp

/-- With a nonpositive span the planner produces the single unbounded
bucket. -/
lemma bucket_bounds_nonpos (f c : Int) (h : c - f ≤ 0) :
    bucket_bounds f c = [((none, none), 0)] := by
  simp only [bucket_bounds, map_N_until_nonpos _ h]
  rfl

/-- C10: the survey always has something to work on — the bucket list is
non-empty for every store and timestamp (hence so is the pairs list that the
initial maximum total irrelevance is taken over), and when no evictable event
exists the list is exactly the single bucket `((none, none), 0)`. -/
theorem C10_buckets_nonempty (store : List Event) (ts : Int) :
    get_epoch_bounds_with_irrelevance store ts ≠ [] ∧
    get_irrelevance_pairs store (get_epoch_bounds_with_irrelevance store ts) ≠ [] ∧
    (store.filter (fun e => !e.never_evict) = [] →
      get_epoch_bounds_with_irrelevance store ts = [((none, none), 0)]) := by
  have h1 : get_epoch_bounds_with_irrelevance store ts ≠ [] := by
    simp only [get_epoch_bounds_with_irrelevance]
    exact bucket_bounds_ne_nil _ _
  refine ⟨h1, ?_, ?_⟩
  · simp only [get_irrelevance_pairs, ne_eq, List.map_eq_nil_iff]
    exact h1
  · intro hnp
    simp only [get_epoch_bounds_with_irrelevance, hnp, List.map_nil, List.min?_nil]
    exact bucket_bounds_nonpos _ _ (by omega)

/-- C10 witness: the empty store. -/
theorem C10_buckets_nonempty_witness :
    get_epoch_bounds_with_irrelevance [] 0 ≠ [] ∧
    get_epoch_bounds_with_irrelevance [] 0 = [((none, none), 0)] :=
  ⟨(C10_buckets_nonempty [] 0).1, (C10_buckets_nonempty [] 0).2.2 rfl⟩

/-- With a negative candidate threshold, `filter_for_work` keeps every bucket
(the surveyed sums are naturals, hence above any negative threshold). -/
lemma filter_for_work_neg (mti : Int) (hm : mti < 0) :
    ∀ (ps : List (Nat × Nat)) (B : List Bucket), ps.length = B.length →
      filter_for_work B ps mti = B := by
  intro ps
  induction ps with
  | nil =>
    intro B hB
    cases B with
    | nil => rfl
    | cons b B' => simp at hB
  | cons p ps' ih =>
    intro B hB
    cases B with
    | nil => simp at hB
    | cons b B' =>
      simp only [filter_for_work, List.zip_cons_cons, List.filterMap_cons]
      rw [if_pos (by push_cast; omega)]
      have := ih B' (by simpa using hB)
      simp only [filter_for_work] at this
      rw [this]

/-- The survey produces one pair per bucket. -/
lemma gip_length (store : List Event) (B : List Bucket) :
    (get_irrelevance_pairs store B).length = B.length := by
  simp [get_irrelevance_pairs]

/-- At threshold `-1`, the executor's first bucket (unbounded above, age
irrelevance 0) wipes every evictable event and the loop breaks; on an
all-evictable store everything is deleted in that single query. -/
lemma evict_wipe (store : List Event) (hall : ∀ e ∈ store, e.never_evict = false)
    (lb : Option Int) (rest : List Bucket) (q : Option Int) :
    evict_for_irrelevance store (-1) (((lb, none), 0) :: rest) q =
      (store.length, [], [store.length]) := by
  have hmatch : ∀ e ∈ store, evictMatch none (-1) e = true := by
    intro e he
    simp [evictMatch, hall e he]
    omega
  have h1 : store.filter (evictMatch none (-1)) = store := List.filter_eq_self.mpr hmatch
  have h2 : store.filter (fun e => !evictMatch none (-1) e) = [] := by
    rw [List.filter_eq_nil]
    intro a ha
    simp [hmatch a ha]
  simp only [evict_for_irrelevance, evict_for_irrelevance_aux, Nat.cast_zero, sub_zero]
  rw [if_pos (le_refl (-1 : Int))]
  simp [evict_for_epoch_and_irrelevance, h1, h2]

/-- Convergence of the eviction loop on an all-evictable store: with enough
fuel, a threshold at least `-1`, and the bookkeeping invariant
`deleted + |store| = sec`, the loop terminates normally with the count brought
to the lowered target and never deletes more than `sec`. -/
lemma evict_loop_converges (maxc sec : Nat) (B : List Bucket) (ps : List (Nat × Nat))
    (hlen : ps.length = B.length)
    (hhead : ∃ lb rest, B = ((lb, none), 0) :: rest) :
    ∀ (fuel : Nat) (store : List Event) (mti : Int) (deleted : Nat) (tr : List Nat),
      (mti + 2).toNat ≤ fuel → -1 ≤ mti →
      deleted + store.length = sec →
      (∀ e ∈ store, e.never_evict = false) →
      (mti = -1 → store = []) →
      ∃ m d s' tr', evict_loop maxc sec B ps fuel store mti deleted tr = .ok (m, d, s', tr') ∧
        (sec : Int) - (d : Int) ≤ (lowered_target maxc : Int) ∧ d ≤ sec := by
  intro fuel
  induction fuel with
  | zero => intro store mti deleted tr hfuel hmti; omega
  | succ n ih =>
    intro store mti deleted tr hfuel hmti hinv hall hempty
    rw [evict_loop_succ]
    by_cases hcond : (sec : Int) - (deleted : Int) > (lowered_target maxc : Int)
    · rw [if_pos hcond]
      have hne : store ≠ [] := by
        intro hc
        rw [hc] at hinv
        simp at hinv
        omega
      have hmti0 : 0 ≤ mti := by
        rcases lt_or_le mti 0 with hlt | hge
        · exact absurd (hempty (by omega)) hne
        · exact hge
      rw [if_neg (by omega : ¬(mti - 1 < -1))]
      set r := evict_for_irrelevance store (mti - 1)
        (filter_for_work B ps (mti - 1))
        (some (((maxc : Int) - (lowered_target maxc : Int)) - (deleted : Int))) with hr
      have hacct : r.1 + r.2.1.length = store.length := by
        rw [hr, evict_for_irrelevance]
        simpa using evict_aux_length _ _ _ _ 0 []
      refine ih r.2.1 (mti - 1) (deleted + r.1) (tr ++ r.2.2) (by omega) (by omega)
        (by omega) (fun e he => hall e (evict_aux_subset _ _ _ _ 0 [] he)) ?_
      intro hm1
      rcases hhead with ⟨lb, rest, hB⟩
      rw [hr, hm1, filter_for_work_neg (-1) (by omega) ps B hlen, hB,
        evict_wipe store hall lb rest _]
    · rw [if_neg hcond]
      exact ⟨mti, deleted, store, tr, rfl, by omega, by omega⟩

/-- Exhaustion of the eviction loop: when even deleting every remaining
evictable event cannot reach the target, the loop raises the fatal
exception. -/
lemma evict_loop_exhausts (maxc sec : Nat) (B : List Bucket) (ps : List (Nat × Nat)) :
    ∀ (fuel : Nat) (store : List Event) (mti : Int) (deleted : Nat) (tr : List Nat),
      (mti + 2).toNat ≤ fuel → -1 ≤ mti →
      (lowered_target maxc : Int) + (deleted : Int) +
        ((store.filter (fun e => !e.never_evict)).length : Int) < (sec : Int) →
      evict_loop maxc sec B ps fuel store mti deleted tr = .error exhaustMsg := by
  intro fuel
  induction fuel with
  | zero => intro store mti deleted tr hfuel hmti; omega
  | succ n ih =>
    intro store mti deleted tr hfuel hmti hgap
    rw [evict_loop_succ]
    rw [if_pos (by omega : (sec : Int) - (deleted : Int) > (lowered_target maxc : Int))]
    by_cases hlow : mti - 1 < -1
    · rw [if_pos hlow]
    · rw [if_neg hlow]
      set r := evict_for_irrelevance store (mti - 1)
        (filter_for_work B ps (mti - 1))
        (some (((maxc : Int) - (lowered_target maxc : Int)) - (deleted : Int))) with hr
      have hnp : r.1 + (r.2.1.filter (fun e => !e.never_evict)).length =
          (store.filter (fun e => !e.never_evict)).length := by
        rw [hr, evict_for_irrelevance]
        simpa using evict_aux_np _ _ _ _ 0 []
      exact ih r.2.1 (mti - 1) (deleted + r.1) (tr ++ r.2.2) (by omega) (by omega) (by
        push_cast
        push_cast at hgap
        omega)

/-- The only exception the eviction loop can raise (given sufficient fuel) is
the threshold-exhaustion one. -/
lemma evict_loop_error_msg (maxc sec : Nat) (B : List Bucket) (ps : List (Nat × Nat)) :
    ∀ (fuel : Nat) (store : List Event) (mti : Int) (deleted : Nat) (tr : List Nat),
      (mti + 2).toNat ≤ fuel → -1 ≤ mti →
      ∀ msg, evict_loop maxc sec B ps fuel store mti deleted tr = .error msg →
        msg = exhaustMsg := by
  intro fuel
  induction fuel with
  | zero => intro store mti deleted tr hfuel hmti; omega
  | succ n ih =>
    intro store mti deleted tr hfuel hmti msg herr
    rw [evict_loop_succ] at herr
    by_cases hcond : (sec : Int) - (deleted : Int) > (lowered_target maxc : Int)
    · rw [if_pos hcond] at herr
      by_cases hlow : mti - 1 < -1
      · rw [if_pos hlow] at herr
        exact ((Except.error.injEq _ _).mp herr).symm
      · rw [if_neg hlow] at herr
        exact ih _ (mti - 1) _ _ (by omega) (by omega) msg herr
    · rw [if_neg hcond] at herr
      exact absurd herr (by simp)

/-- C3: convergence of one run at `maxEventCount = 10000`,
`storedCount = 10001`.  With no protected events the run returns normally
with the reported final count `storedCount - deleted` between 0 and 9500;
with fewer than 501 evictable events in the store it raises the fatal
exhaustion error instead. -/
theorem C3_convergence (store : List Event) (ts : Int) :
    ((∀ e ∈ store, e.never_evict = false) → store.length = 10001 →
      ∃ m d s' tr',
        evict_for_max_events store 10000 ts (some 10001) = .ok (m, d, s', tr') ∧
        (10001 : Int) - (d : Int) ≤ 9500 ∧ 0 ≤ (10001 : Int) - (d : Int)) ∧
    ((store.filter (fun e => !e.never_evict)).length < 501 →
      evict_for_max_events store 10000 ts (some 10001) = .error exhaustMsg) := by
  set B := get_epoch_bounds_with_irrelevance store ts with hB
  set ps := get_irrelevance_pairs store B with hps
  set orig := (ps.map (fun p => p.1 + p.2)).foldr Nat.max 0 with horig
  have heq : evict_for_max_events store 10000 ts (some 10001) =
      evict_loop 10000 10001 B ps (orig + 2) store (orig : Int) 0 [] := rfl
  constructor
  · intro hall hlen
    rw [heq]
    obtain ⟨m, d, s', tr', hok, hle, hds⟩ :=
      evict_loop_converges 10000 10001 B ps (by rw [hps]; exact gip_length store B)
        (by
          rw [hB]
          simp only [get_epoch_bounds_with_irrelevance]
          exact bucket_bounds_shape _ _)
        (orig + 2) store (orig : Int) 0 []
        (by omega) (by omega) (by omega) hall (fun h => absurd h (by omega))
    rw [show lowered_target 10000 = 9500 from rfl] at hle
    exact ⟨m, d, s', tr', hok, by push_cast at hle ⊢; omega, by omega⟩
  · intro hnp
    rw [heq]
    exact evict_loop_exhausts 10000 10001 B ps (orig + 2) store (orig : Int) 0 []
      (by omega) (by omega)
      (by rw [show lowered_target 10000 = 9500 from rfl]; push_cast; omega)

/-- C3 witness: 10001 unprotected events converge; an empty store (fewer than
501 evictable events) raises the exhaustion error. -/
theorem C3_convergence_witness :
    ((∀ e ∈ List.replicate 10001 (⟨0, 0, 0, false⟩ : Event), e.never_evict = false) ∧
      (List.replicate 10001 (⟨0, 0, 0, false⟩ : Event)).length = 10001 ∧
      ∃ m d s' tr',
        evict_for_max_events (List.replicate 10001 ⟨0, 0, 0, false⟩) 10000 0 (some 10001) =
          .ok (m, d, s', tr') ∧
        (10001 : Int) - (d : Int) ≤ 9500 ∧ 0 ≤ (10001 : Int) - (d : Int)) ∧
    ((List.filter (fun e => !e.never_evict) ([] : List Event)).length < 501 ∧
      evict_for_max_events [] 10000 0 (some 10001) = .error exhaustMsg) := by
  constructor
  · have hall : ∀ e ∈ List.replicate 10001 (⟨0, 0, 0, false⟩ : Event),
        e.never_evict = false := by
      intro e he
      rw [List.eq_of_mem_replicate he]
    have hlen : (List.replicate 10001 (⟨0, 0, 0, false⟩ : Event)).length = 10001 :=
      List.length_replicate _ _
    exact ⟨hall, hlen, (C3_convergence _ 0).1 hall hlen⟩
  · exact ⟨by decide, (C3_convergence [] 0).2 (by decide)⟩

/-- C4: the run raises the fatal exhaustion error exactly when the threshold
drops below `-1` while the stored count is still above the lowered target: in
that situation the iteration returns the error immediately (no retry of the
sweep), in every other situation the iteration either returns normally or
continues the sweep, and at the API level the only exception
`evict_for_max_events` ever produces is the exhaustion one (it propagates to
the caller). -/
theorem C4_exhaustion_exact (maxc sec : Nat) (B : List Bucket) (ps : List (Nat × Nat))
    (fuel : Nat) (store : List Event) (mti : Int) (deleted : Nat) (tr : List Nat) :
    ((sec : Int) - (deleted : Int) > (lowered_target maxc : Int) → mti - 1 < -1 →
      evict_loop maxc sec B ps (fuel + 1) store mti deleted tr = .error exhaustMsg) ∧
    (¬((sec : Int) - (deleted : Int) > (lowered_target maxc : Int)) →
      evict_loop maxc sec B ps (fuel + 1) store mti deleted tr =
        .ok (mti, deleted, store, tr)) ∧
    ((sec : Int) - (deleted : Int) > (lowered_target maxc : Int) → ¬(mti - 1 < -1) →
      evict_loop maxc sec B ps (fuel + 1) store mti deleted tr =
        evict_loop maxc sec B ps fuel
          (evict_for_irrelevance store (mti - 1) (filter_for_work B ps (mti - 1))
            (some (((maxc : Int) - (lowered_target maxc : Int)) - (deleted : Int)))).2.1
          (mti - 1)
          (deleted + (evict_for_irrelevance store (mti - 1) (filter_for_work B ps (mti - 1))
            (some (((maxc : Int) - (lowered_target maxc : Int)) - (deleted : Int)))).1)
          (tr ++ (evict_for_irrelevance store (mti - 1) (filter_for_work B ps (mti - 1))
            (some (((maxc : Int) - (lowered_target maxc : Int)) - (deleted : Int)))).2.2)) ∧
    (∀ (store' : List Event) (maxc' : Nat) (ts : Int) (secOpt : Option Nat) (msg : String),
      evict_for_max_events store' maxc' ts secOpt = .error msg → msg = exhaustMsg) := by
  refine ⟨fun hcond hlow => ?_, fun hcond => ?_, fun hcond hlow => ?_, ?_⟩
  · rw [evict_loop_succ, if_pos hcond]
    rw [if_pos hlow]
  · rw [evict_loop_succ, if_neg hcond]
  · rw [evict_loop_succ, if_pos hcond]
    rw [if_neg hlow]
  · intro store' maxc' ts secOpt msg herr
    have heq : evict_for_max_events store' maxc' ts secOpt =
        evict_loop maxc'
          (match secOpt with | some n => n | none => store'.length + 1)
          (get_epoch_bounds_with_irrelevance store' ts)
          (get_irrelevance_pairs store' (get_epoch_bounds_with_irrelevance store' ts))
          (((get_irrelevance_pairs store' (get_epoch_bounds_with_irrelevance store' ts)).map
            (fun p => p.1 + p.2)).foldr Nat.max 0 + 2)
          store'
          ((((get_irrelevance_pairs store' (get_epoch_bounds_with_irrelevance store' ts)).map
            (fun p => p.1 + p.2)).foldr Nat.max 0 : Nat) : Int)
          0 [] := by
      cases secOpt <;> rfl
    rw [heq] at herr
    refine evict_loop_error_msg _ _ _ _ _ _ _ _ _ ?_ ?_ msg herr <;> omega

/-- C4 witness: a concrete raising iteration and a concrete non-raising
iteration. -/
theorem C4_exhaustion_exact_witness :
    ((10001 : Int) - ((0 : Nat) : Int) > (lowered_target 10000 : Int) ∧
      (-1 : Int) - 1 < -1 ∧
      evict_loop 10000 10001 [] [] (0 + 1) [] (-1) 0 [] = .error exhaustMsg) ∧
    (¬((9 : Int) - ((0 : Nat) : Int) > (lowered_target 100 : Int)) ∧
      evict_loop 100 9 [] [] (0 + 1) [] 5 0 [] = .ok (5, 0, [], [])) :=
  ⟨⟨by decide, by decide,
      (C4_exhaustion_exact 10000 10001 [] [] 0 [] (-1) 0 []).1 (by decide) (by decide)⟩,
    ⟨by decide, (C4_exhaustion_exact 100 9 [] [] 0 [] 5 0 []).2.1 (by decide)⟩⟩

/-- After a bulk delete at item irrelevance at most `-1`, every surviving
evictable event sits at or above the epoch upper bound (which in particular
must have been given). -/
lemma wipe_residual (store : List Event) (u : Option Int) (mii : Int) (hmii : mii ≤ -1)
    (e : Event) (he : e ∈ (evict_for_epoch_and_irrelevance store u mii).2)
    (hne : e.never_evict = false) :
    ∃ m, u = some m ∧ ¬(e.server_side_timestamp < datetime_for_epoch m) := by
  rcases List.mem_filter.mp he with ⟨_, hf⟩
  rw [Bool.not_eq_eq_eq_not, Bool.not_true] at hf
  cases u with
  | none =>
    exfalso
    simp [evictMatch, hne] at hf
    omega
  | some m =>
    refine ⟨m, rfl, fun hts => ?_⟩
    simp [evictMatch, hne, hts] at hf
    omega

/-- A bulk delete with no matching row deletes nothing and leaves the store
unchanged. -/
lemma epoch_delete_noop (store : List Event) (u : Option Int) (mi : Int)
    (h : ∀ e ∈ store, evictMatch u mi e = false) :
    evict_for_epoch_and_irrelevance store u mi = (0, store) := by
  simp only [evict_for_epoch_and_irrelevance]
  rw [List.filter_eq_nil.mpr (by intro a ha; simp [h a ha]),
    List.filter_eq_self.mpr (by intro a ha; simp [h a ha])]
  rfl

/-- The no-early-exit executor does nothing on a store whose evictable events
all sit at or above `m0`, when every remaining bucket is bounded above by
`m0`. -/
lemma noexit_noop (mti m0 : Int) :
    ∀ (rest : List Bucket) (store : List Event),
      (∀ b ∈ rest, ∃ mb, b.1.2 = some mb ∧ mb ≤ m0) →
      (∀ e ∈ store, e.never_evict = false →
        ¬(e.server_side_timestamp < datetime_for_epoch m0)) →
      evict_for_irrelevance_noexit store mti rest = (0, store) := by
  intro rest
  induction rest with
  | nil => intro store _ _; rfl
  | cons b rest' ih =>
    intro store hb hres
    rcases hb b (List.mem_cons_self b rest') with ⟨mb, hub, hmb⟩
    have hstep : evict_for_epoch_and_irrelevance store b.1.2 (mti - (b.2 : Int)) =
        (0, store) := by
      apply epoch_delete_noop
      intro e he
      rw [hub]
      by_cases hne : e.never_evict
      · simp [evictMatch, hne]
      · have hge := hres e he (by simpa using hne)
        have : ¬(e.server_side_timestamp < datetime_for_epoch mb) := by
          simp only [datetime_for_epoch] at hge ⊢
          omega
        simp [evictMatch, this]
    have htail : evict_for_irrelevance_noexit store mti rest' = (0, store) :=
      ih store (fun b' hm => hb b' (List.mem_cons_of_mem _ hm)) hres
    simp only [evict_for_irrelevance_noexit, hstep, htail]

/-- The no-early-exit executor does nothing on a store with only protected
events. -/
lemma noexit_noop_protected (mti : Int) :
    ∀ (rest : List Bucket) (store : List Event),
      (∀ e ∈ store, e.never_evict = true) →
      evict_for_irrelevance_noexit store mti rest = (0, store) := by
  intro rest
  induction rest with
  | nil => intro store _; rfl
  | cons b rest' ih =>
    intro store hall
    have hstep : evict_for_epoch_and_irrelevance store b.1.2 (mti - (b.2 : Int)) =
        (0, store) :=
      epoch_delete_noop _ _ _ (fun e he => evictMatch_protected _ _ e (hall e he))
    have htail : evict_for_irrelevance_noexit store mti rest' = (0, store) := ih store hall
    simp only [evict_for_irrelevance_noexit, hstep, htail]

/-- Core of the early-exit equivalence: on a bucket list whose epoch upper
bounds only decrease (with `none` only allowed before any bounded bucket), the
implemented executor (which breaks once `max_item_irrelevance <= -1`) deletes
the same number of events and leaves the same store as the variant that
processes every remaining older bucket. -/
lemma evict_impl_noexit (mti : Int) :
    ∀ (ebwi : List Bucket),
      List.Pairwise (fun b b' : Bucket =>
        ∀ m, b.1.2 = some m → ∃ m', b'.1.2 = some m' ∧ m' ≤ m) ebwi →
      ∀ (store : List Event) (acc : Nat) (tr : List Nat),
        (evict_for_irrelevance_aux mti none store ebwi acc tr).1 =
          acc + (evict_for_irrelevance_noexit store mti ebwi).1 ∧
        (evict_for_irrelevance_aux mti none store ebwi acc tr).2.1 =
          (evict_for_irrelevance_noexit store mti ebwi).2 := by
  intro ebwi
  induction ebwi with
  | nil =>
    intro _ store acc tr
    simp [evict_for_irrelevance_aux, evict_for_irrelevance_noexit]
  | cons b rest ih =>
    intro hpw store acc tr
    rcases List.pairwise_cons.mp hpw with ⟨hb, hpw'⟩
    simp only [evict_for_irrelevance_aux, evict_for_irrelevance_noexit]
    by_cases hmii : mti - (b.2 : Int) ≤ -1
    · rw [if_pos hmii]
      have hrest : evict_for_irrelevance_noexit
          (evict_for_epoch_and_irrelevance store b.1.2 (mti - (b.2 : Int))).2 mti rest =
          (0, (evict_for_epoch_and_irrelevance store b.1.2 (mti - (b.2 : Int))).2) := by
        cases hub : b.1.2 with
        | none =>
          apply noexit_noop_protected
          intro e he
          by_cases hne : e.never_evict
          · exact hne
          · rcases wipe_residual store none (mti - (b.2 : Int)) hmii e he
              (by simpa using hne) with ⟨m, hm, _⟩
            exact absurd hm (by simp)
        | some m0 =>
          apply noexit_noop mti m0 rest
          · intro b' hb'
            rcases hb b' hb' m0 hub with ⟨m', hm', hle⟩
            exact ⟨m', hm', hle⟩
          · intro e he hne
            rcases wipe_residual store (some m0) (mti - (b.2 : Int)) hmii e he hne
              with ⟨m, hm, hge⟩
            cases hm
            exact hge
      simp only [hrest]
      exact ⟨by omega, trivial⟩
    · rw [if_neg hmii]
      rw [show quotaReached none
        (acc + (evict_for_epoch_and_irrelevance store b.1.2 (mti - (b.2 : Int))).1) = false
        from rfl]
      simp only [Bool.false_eq_true, if_false]
      have hih := ih hpw'
        (evict_for_epoch_and_irrelevance store b.1.2 (mti - (b.2 : Int))).2
        (acc + (evict_for_epoch_and_irrelevance store b.1.2 (mti - (b.2 : Int))).1)
        (tr ++ [(evict_for_epoch_and_irrelevance store b.1.2 (mti - (b.2 : Int))).1])
      exact ⟨by rw [hih.1]; omega, hih.2⟩

/-- The planner's buckets have decreasing epoch upper bounds: whenever an
earlier (newer) bucket is bounded above, every later (older) bucket is bounded
above by something at most as large. -/
lemma bucket_bounds_pairwise_ub (f c : Int) :
    List.Pairwise (fun b b' : Bucket =>
      ∀ m, b.1.2 = some m → ∃ m', b'.1.2 = some m' ∧ m' ≤ m) (bucket_bounds f c) := by
  have hubs : List.Pairwise (fun u v : Option Int =>
      ∀ m, u = some m → ∃ m', v = some m' ∧ m' ≤ m)
      ((bucket_bounds f c).map (fun b => b.1.2)) := by
    rw [bucket_bounds_ubs]
    refine List.pairwise_cons.mpr ⟨fun v _ m hm => absurd hm (by simp), ?_⟩
    have hchain : List.Chain' (· > ·)
        ((map_N_until get_age_for_irrelevance (c - f)).map
          (fun n : Nat => (c - (n : Int)))) := bucket_boundary_chain f c
    have hpw : List.Pairwise (· > ·)
        ((map_N_until get_age_for_irrelevance (c - f)).map
          (fun n : Nat => (c - (n : Int)))) := List.chain'_iff_pairwise.mp hchain
    have : List.Pairwise (fun a b : Int =>
        ∀ m, some a = some m → ∃ m', some b = some m' ∧ m' ≤ m)
        ((map_N_until get_age_for_irrelevance (c - f)).map
          (fun n : Nat => (c - (n : Int)))) :=
      hpw.imp (fun hab m hm => ⟨_, rfl, by cases hm; omega⟩)
    have hmm : ((map_N_until get_age_for_irrelevance (c - f)).map
        (fun n : Nat => some (c - (n : Int)))) =
        (((map_N_until get_age_for_irrelevance (c - f)).map
          (fun n : Nat => (c - (n : Int)))).map some) := by
      rw [List.map_map]
      rfl
    rw [hmm, List.pairwise_map]
    exact this
  rw [List.pairwise_map] at hubs
  exact hubs

/-- C7: on every bucket list as produced by the planner (for any survey store
and timestamp) and for every threshold, the executor with its
`max_item_irrelevance <= -1` break and no quota deletes exactly the same
events — same count, same remaining store — as the spec-described variant that
processes every remaining older bucket. -/
theorem C7_early_exit_equiv (survey_store : List Event) (ts : Int)
    (store : List Event) (mti : Int) :
    (evict_for_irrelevance store mti
        (get_epoch_bounds_with_irrelevance survey_store ts) none).1 =
      (evict_for_irrelevance_noexit store mti
        (get_epoch_bounds_with_irrelevance survey_store ts)).1 ∧
    (evict_for_irrelevance store mti
        (get_epoch_bounds_with_irrelevance survey_store ts) none).2.1 =
      (evict_for_irrelevance_noexit store mti
        (get_epoch_bounds_with_irrelevance survey_store ts)).2 := by
  have h := evict_impl_noexit mti (get_epoch_bounds_with_irrelevance survey_store ts)
    (by
      simp only [get_epoch_bounds_with_irrelevance]
      exact bucket_bounds_pairwise_ub _ _)
    store 0 []
  exact ⟨by rw [evict_for_irrelevance, h.1]; omega, by rw [evict_for_irrelevance, h.2]⟩

end Retention
